import Mathlib

/-!
Verification of the diff representation and chunking engine of
`nbdime/webapp/src/diffmodel.ts` (Chunk, StringDiffModel.getChunks,
createDirectDiffModel, createPatchDiffModel, OutputDiffModel) through a
shallow embedding.  Line/column coordinates are natural numbers; the running
`editOffset` of the chunk builder and the chunk line spans are integers, as
the JavaScript arithmetic can make them negative.  Missing collaborator code
(the Range Translator `raw2Pos` from `diffutil.ts`, the serialization
`stringify`, the `patch`/`patchStringified` primitives and the diff-entry
lookup `getDiffKey` from `patch.ts`/`diffutil.ts`) is modelled from the
specification and marked as such; the patch primitives stay abstract
function parameters wherever a claim does not depend on their output.
-/

namespace Nbdime

/-- A `CodeMirror.Pos`: zero-based line and column (`ch`) coordinates. -/
structure Pos where
  line : Nat
  ch : Nat
deriving Repr, DecidableEq

/-- Structure `DiffRangeRaw` from `diffutil.ts`: a half-open character-offset span. -/
structure DiffRangeRaw where
  fromOff : Nat
  toOff : Nat
deriving Repr, DecidableEq

/-- Structure `DiffRangePos` from `diffutil.ts`: a raw range translated into
line/column coordinates, with the two boundary flags used by the chunker. -/
structure DiffRangePos where
  fromPos : Pos
  toPos : Pos
  endsOnNewline : Bool
  chunkStartLine : Bool
deriving Repr, DecidableEq

/-- Modelled from the spec: the position of a character offset inside a
string, found by scanning line boundaries (spec 4.1, Range Translator).  The
line is the number of line terminators before the offset, the column the
distance to the previous line terminator. -/
def posOfOffset (text : String) (off : Nat) : Pos :=
  let pre := text.toList.take off
  ⟨pre.count '\n', (pre.reverse.takeWhile (fun c => c ≠ '\n')).length⟩

/-- Modelled from the spec: `raw2Pos` lives in `diffutil.ts`, which is not
among the sources.  Per spec 4.1 it maps each raw range to a parallel
position range: it locates the line/column of `from` and `to` by scanning
line boundaries, sets `endsOnNewline` true iff the character immediately
preceding `to` is a line terminator, and sets `chunkStartLine` true iff
`from` has column 0. -/
def raw2Pos (ranges : List DiffRangeRaw) (text : String) : List DiffRangePos :=
  ranges.map fun r =>
    { fromPos := posOfOffset text r.fromOff
      toPos := posOfOffset text r.toOff
      endsOnNewline := decide (0 < r.toOff) &&
        (text.toList.take r.toOff).getLast? == some '\n'
      chunkStartLine := (posOfOffset text r.fromOff).ch == 0 }

/-- The `Chunk` class of `diffmodel.ts`: correlated line spans.  The line
coordinates are integers because `getChunks` computes them by adding or
subtracting the running `editOffset`. -/
structure Chunk where
  editFrom : Int
  editTo : Int
  origFrom : Int
  origTo : Int
deriving Repr, DecidableEq

/-- Method `Chunk.inEdit`: `line >= this.editFrom && line <= this.editTo`. -/
def Chunk.inEdit (c : Chunk) (line : Int) : Bool :=
  c.editFrom ≤ line && line ≤ c.editTo

/-- Method `Chunk.inOrig`: `line >= this.origFrom && line <= this.origTo`. -/
def Chunk.inOrig (c : Chunk) (line : Int) : Bool :=
  c.origFrom ≤ line && line ≤ c.origTo

/-- The comparison of `getChunks` that decides whether the next consumed
range is the addition `ra` rather than the deletion `rd`:
`ra.from.line < rd.from.line - editOffset ||
 (ra.from.line == rd.from.line - editOffset && ra.from.ch <= rd.from.ch)`. -/
def pickAddition (ra rd : DiffRangePos) (editOffset : Int) : Bool :=
  (ra.fromPos.line : Int) < (rd.fromPos.line : Int) - editOffset ||
    ((ra.fromPos.line : Int) == (rd.fromPos.line : Int) - editOffset &&
      ra.fromPos.ch ≤ rd.fromPos.ch)

/-- One iteration of the `getChunks` loop body after the range to consume has
been selected: returns the chunks emitted by this step, the open chunk, and
the updated `editOffset`. -/
def processRange (range : DiffRangePos) (isAddition : Bool) (editOffset : Int)
    (current : Option Chunk) : List Chunk × Option Chunk × Int :=
  let linediff0 : Int := (range.toPos.line : Int) - (range.fromPos.line : Int)
  let linediff : Int := if range.endsOnNewline then linediff0 + 1 else linediff0
  let firstLineNew : Bool := range.fromPos.ch == 0 && decide (0 < linediff)
  let startOffset : Int := if range.chunkStartLine then 0 else 1
  let endOffset : Int :=
    if range.chunkStartLine && range.endsOnNewline && firstLineNew then 0 else 1
  let step1 : List Chunk × Option Chunk :=
    match current with
    | some c =>
      if isAddition then
        if c.inOrig range.fromPos.line then
          ([], some { c with origTo := max c.origTo ((range.toPos.line : Int) + 1) })
        else
          ([c], none)
      else
        if c.inEdit range.fromPos.line then
          ([], some { c with editTo := max c.editTo ((range.toPos.line : Int) + 1) })
        else
          ([c], none)
    | none => ([], none)
  let opened : Option Chunk :=
    match step1.2 with
    | some c => some c
    | none =>
      if isAddition then
        let startOrig : Int := range.fromPos.line
        let startEdit : Int := startOrig + editOffset
        some ⟨startEdit + startOffset, startEdit + endOffset,
              startOrig + startOffset, startOrig + endOffset + linediff⟩
      else
        let startEdit : Int := range.fromPos.line
        let startOrig : Int := startEdit - editOffset
        some ⟨startEdit + startOffset, startEdit + endOffset + linediff,
              startOrig + startOffset, startOrig + endOffset⟩
  (step1.1, opened, editOffset + (if isAddition then -linediff else linediff))

/-- The main loop of `StringDiffModel.getChunks`, with the two cursors given
as the remaining suffixes of the additions and deletions lists.  The loop
consumes one range per iteration; to keep the definition computable by the
kernel it carries the number of remaining ranges as explicit structural
fuel, decremented exactly when a range is consumed.  Callers pass the total
length of both lists, so the zero-fuel clause (which behaves like loop exit)
is never reached. -/
def getChunksLoop : Nat → List DiffRangePos → List DiffRangePos → Int →
    Option Chunk → List Chunk
  | _, [], [], _, current =>
    match current with
    | some c => [c]
    | none => []
  | fuel + 1, ra :: as, rd :: ds, editOffset, current =>
    if pickAddition ra rd editOffset then
      let r := processRange ra true editOffset current
      r.1 ++ getChunksLoop fuel as (rd :: ds) r.2.2 r.2.1
    else
      let r := processRange rd false editOffset current
      r.1 ++ getChunksLoop fuel (ra :: as) ds r.2.2 r.2.1
  | fuel + 1, ra :: as, [], editOffset, current =>
    let r := processRange ra true editOffset current
    r.1 ++ getChunksLoop fuel as [] r.2.2 r.2.1
  | fuel + 1, [], rd :: ds, editOffset, current =>
    let r := processRange rd false editOffset current
    r.1 ++ getChunksLoop fuel [] ds r.2.2 r.2.1
  | 0, _, _, _, current =>
    match current with
    | some c => [c]
    | none => []

/-- Class `StringDiffModel`: base/remote text (`none` embeds JavaScript `null`),
translated ranges, mimetype and the collapsibility hints.  `mimetype`,
`collapsibleHeader` and `startCollapsed` are `Option`s because the TypeScript
fields can be left `undefined` by the constructor. -/
structure StringDiffModel where
  base : Option String
  remote : Option String
  additions : List DiffRangePos
  deletions : List DiffRangePos
  mimetype : Option String
  collapsible : Bool
  collapsibleHeader : Option String
  startCollapsed : Option Bool
deriving Repr, DecidableEq

/-- Method `StringDiffModel.getChunks`. -/
def StringDiffModel.getChunks (m : StringDiffModel) : List Chunk :=
  getChunksLoop (m.additions.length + m.deletions.length)
    m.additions m.deletions 0 none

/-- Getter `unchanged`: `this.base == this.remote` (JavaScript loose equality;
`null == null` holds, `null` is not loosely equal to any string). -/
def StringDiffModel.unchanged (m : StringDiffModel) : Bool :=
  m.base == m.remote

/-- Getter `added`: `this.base === null`. -/
def StringDiffModel.added (m : StringDiffModel) : Bool :=
  m.base == none

/-- Getter `deleted`: `this.remote === null`. -/
def StringDiffModel.deleted (m : StringDiffModel) : Bool :=
  m.remote == none

/-- A JavaScript value, as far as the diff models inspect one: `null`,
strings, numbers, booleans and objects with string keys.  A missing object
member is conflated with `null`. -/
inductive JsVal where
  | null
  | str (s : String)
  | num (n : Int)
  | bool (b : Bool)
  | obj (fields : List (String × JsVal))
deriving Repr

/-- Strict equality `v === null`. -/
def JsVal.isNull : JsVal → Bool
  | .null => true
  | _ => false

/-- Strict equality `v === s` for a string literal `s`. -/
def JsVal.isStr (v : JsVal) (s : String) : Bool :=
  match v with
  | .str t => t == s
  | _ => false

/-- JavaScript falsiness of a value (`!v`). -/
def jsFalsy : JsVal → Bool
  | .null => true
  | .str s => s == ""
  | .num n => n == 0
  | .bool b => !b
  | .obj _ => false

/-- Member access `obj[key]`; missing members and non-objects yield `null`. -/
def jsGet (v : JsVal) (key : String) : JsVal :=
  match v with
  | .obj fields =>
    match fields.lookup key with
    | some x => x
    | none => .null
  | _ => .null

/-- Membership test `key in obj`. -/
def jsHasKey (v : JsVal) (key : String) : Bool :=
  match v with
  | .obj fields => fields.any (fun kv => kv.1 == key)
  | _ => false

mutual

/-- Modelled from the spec: the external `stringify(value) -> string`
primitive of `patch.ts`, which is not among the sources; spec 6 calls it the
canonical serialization for non-string content, and the doc comment of
`createPatchDiffModel` names JSON stringification rules.  String escaping is
elided: the inputs of the claims contain no characters needing escapes. -/
def stringify : JsVal → String
  | .null => "null"
  | .str s => "\"" ++ s ++ "\""
  | .num n => toString n
  | .bool b => if b then "true" else "false"
  | .obj fields => "\x7b" ++ stringifyFields fields ++ "\x7d"

/-- Modelled from the spec: serialization of the members of an object, as a
comma-separated list of quoted keys and serialized values. -/
def stringifyFields : List (String × JsVal) → String
  | [] => ""
  | [(k, v)] => "\"" ++ k ++ "\":" ++ stringify v
  | (k, v) :: rest => "\"" ++ k ++ "\":" ++ stringify v ++ "," ++ stringifyFields rest

end

/-- The conversion `typeof v == 'string' ? v : stringify(v)` both model
factories apply to their inputs. -/
def directStr (v : JsVal) : String :=
  match v with
  | .str s => s
  | v => stringify v

/-- The `StringDiffModel` constructor: translates the raw ranges against the
respective sides (skipping a `null` side) and records the collapsibility
hints.  The `console.assert` calls of the source only log and are not
modelled.  `String.length` counts characters where JavaScript counts UTF-16
units; the two agree on all inputs appearing below. -/
def StringDiffModel.make (base remote : Option String)
    (additions deletions : List DiffRangeRaw)
    (collapsible : Option Bool) (header : Option String)
    (collapsed : Option Bool) : StringDiffModel :=
  let dels := match base with
    | none => []
    | some b => raw2Pos deletions b
  let adds := match remote with
    | none => []
    | some r => raw2Pos additions r
  let coll := collapsible == some true
  { base := base, remote := remote, additions := adds, deletions := dels
    mimetype := none
    collapsible := coll
    collapsibleHeader :=
      if coll then some (match header with | some h => h | none => "") else none
    startCollapsed := if coll then collapsed else none }

/-- Factory `createDirectDiffModel`: direct models represent pure addition, pure
deletion or identity, and reject a genuine transformation by throwing. -/
def createDirectDiffModel (base remote : JsVal) : Except String StringDiffModel :=
  let base_str := directStr base
  let remote_str := directStr remote
  if base.isNull then
    .ok (StringDiffModel.make none (some remote_str)
      [⟨0, remote_str.length⟩] [] none none none)
  else if remote.isNull then
    .ok (StringDiffModel.make (some base_str) none
      [] [⟨0, base_str.length⟩] none none none)
  else if remote_str ≠ base_str then
    .error ("Invalid arguments to createDirectDiffModel()." ++
      "Either base or remote should be null, or they should be equal!")
  else
    .ok (StringDiffModel.make (some base_str) (some remote_str) [] [] none none none)

/-- Modelled from the spec: a diff entry of the external differ, a closed
tagged union of add/remove/replace/patch-at-key variants (spec 6 and 9);
`diffutil.ts` is not among the sources. -/
inductive DiffEntry where
  | addEntry (key : String) (value : JsVal)
  | removeEntry (key : String)
  | replaceEntry (key : String) (value : JsVal)
  | patchEntry (key : String) (diff : List DiffEntry)

/-- The key a diff entry addresses. -/
def DiffEntry.key : DiffEntry → String
  | .addEntry k _ => k
  | .removeEntry k => k
  | .replaceEntry k _ => k
  | .patchEntry k _ => k

/-- Modelled from the spec: `getDiffKey(diff, key)` of `diffutil.ts`, the
structural key lookup over diff entries (spec 6 and 9): it returns the
sub-diff of the first entry addressing `key` (only a patch entry carries
one) and an explicit not-found result otherwise. -/
def getDiffKey (diff : List DiffEntry) (key : String) : Option (List DiffEntry) :=
  match diff with
  | [] => none
  | e :: rest =>
    if e.key = key then
      match e with
      | .patchEntry _ d => some d
      | _ => none
    else getDiffKey rest key

/-- The result record of the external `patchStringified` primitive of
`patch.ts` (spec 6): the patched remote string and the raw ranges. -/
structure PatchResult where
  remote : String
  additions : List DiffRangeRaw
  deletions : List DiffRangeRaw

/-- Factory `createPatchDiffModel`, parameterized by the external `patchStringified`
primitive; its `console.assert` only logs and is not modelled. -/
def createPatchDiffModel (patchStringified : JsVal → List DiffEntry → PatchResult)
    (base : JsVal) (diff : List DiffEntry) : StringDiffModel :=
  let base_str := directStr base
  let out := patchStringified base diff
  StringDiffModel.make (some base_str) (some out.remote)
    out.additions out.deletions none none none

/-- Class `OutputDiffModel`: a structured output pair with an optional diff-entry
list.  `remote` holds the value computed by the constructor. -/
structure OutputDiffModel where
  base : JsVal
  remote : JsVal
  diff : Option (List DiffEntry)
  collapsible : Bool
  collapsibleHeader : Option String
  startCollapsed : Option Bool

/-- The `OutputDiffModel` constructor, parameterized by the external `patch`
primitive of `patch.ts`: `if (!remote && diff) this.remote = patch(base, diff)`,
and `this.diff = !!diff ? diff : null` (the identity on our `Option`, where
`none` embeds both `undefined` and `null`). -/
def OutputDiffModel.make (patchFn : JsVal → List DiffEntry → JsVal)
    (base remote : JsVal) (diff : Option (List DiffEntry))
    (collapsible : Option Bool) (header : Option String)
    (collapsed : Option Bool) : OutputDiffModel :=
  let remoteVal := match diff with
    | some d => if jsFalsy remote then patchFn base d else remote
    | none => remote
  let coll := collapsible == some true
  { base := base, remote := remoteVal, diff := diff
    collapsible := coll
    collapsibleHeader :=
      if coll then some (match header with | some h => h | none => "") else none
    startCollapsed := if coll then collapsed else none }

/-- Getter `unchanged` of `OutputDiffModel`: `this.diff === null`. -/
def OutputDiffModel.unchanged (m : OutputDiffModel) : Bool :=
  m.diff.isNone

/-- Getter `added` of `OutputDiffModel`: `this.base === null`. -/
def OutputDiffModel.added (m : OutputDiffModel) : Bool :=
  m.base.isNull

/-- Getter `deleted` of `OutputDiffModel`: `this.remote === null`. -/
def OutputDiffModel.deleted (m : OutputDiffModel) : Bool :=
  m.remote.isNull

/-- The expression `this.base ? this.base.output_type : this.remote.output_type`, shared by
`hasMimeType` and `innerMimeType`. -/
def OutputDiffModel.outputType (m : OutputDiffModel) : JsVal :=
  if !jsFalsy m.base then jsGet m.base "output_type" else jsGet m.remote "output_type"

/-- Method `OutputDiffModel.hasMimeType`: the path to a mimetype's data if present,
else `null`. -/
def OutputDiffModel.hasMimeType (m : OutputDiffModel) (mimetype : String) :
    Option String :=
  let t := m.outputType
  if t.isStr "stream" && mimetype == "application/vnd.jupyter.console-text" then
    some "text"
  else if t.isStr "execute_result" || t.isStr "display_data" then
    let data := if !jsFalsy m.base then jsGet m.base "data" else jsGet m.remote "data"
    if jsHasKey data mimetype then some ("data." ++ mimetype) else none
  else
    none

/-- The test `key.indexOf('data.') === 0`, written on the character list so
that it evaluates by kernel reduction. -/
def startsWithData (key : String) : Bool :=
  key.toList.take "data.".length == "data.".toList

/-- Method `OutputDiffModel.innerMimeType`: the expected MIME type of the subpath
named by `key`; throws for unknown keys.  `key.slice('data.'.length)` is
written as a drop on the character list so that it evaluates by kernel
reduction. -/
def OutputDiffModel.innerMimeType (m : OutputDiffModel) (key : String) :
    Except String String :=
  let t := m.outputType
  if t.isStr "stream" && key == "text" then
    .ok "text/plain"
  else if (t.isStr "execute_result" || t.isStr "display_data") &&
      startsWithData key then
    .ok (String.mk (key.toList.drop "data.".length))
  else
    .error ("Unknown MIME type for key: " ++ key)

/-- The components of a dotted key: repeated `key.indexOf('.')` slicing
splits the key at every dot, which this structural recursion on the
character list reproduces. -/
def splitDotsChars : List Char → List (List Char)
  | [] => [[]]
  | c :: rest =>
    let r := splitDotsChars rest
    if c = '.' then [] :: r
    else
      match r with
      | h :: t => (c :: h) :: t
      | [] => [[c]]

/-- The components of a dotted key, as strings. -/
def splitDots (key : String) : List String :=
  (splitDotsChars key.toList).map String.mk

/-- The value instance of the local `getMemberByPath` of
`OutputDiffModel.stringify`, with the dotted key already split at the dots
(`key.indexOf('.')`-based slicing splits off the same components): descend
through object members, returning a falsy object unchanged. -/
def getMemberByPathList (obj : JsVal) : List String → JsVal
  | [] => obj
  | [k] => if jsFalsy obj then obj else jsGet obj k
  | k :: rest =>
    if jsFalsy obj then obj else getMemberByPathList (jsGet obj k) rest

/-- The call `getMemberByPath(obj, key)` on a dotted key. -/
def getMemberByPath (obj : JsVal) (key : String) : JsVal :=
  getMemberByPathList obj (splitDots key)

/-- The diff instance of the local `getMemberByPath`, where the lookup at
each component is `getDiffKey` and `null` propagates. -/
def getDiffByPathList (diff : Option (List DiffEntry)) :
    List String → Option (List DiffEntry)
  | [] => diff
  | [k] =>
    match diff with
    | none => none
    | some d => getDiffKey d k
  | k :: rest =>
    match diff with
    | none => none
    | some d => getDiffByPathList (getDiffKey d k) rest

/-- The call `getMemberByPath(diff, key, getDiffKey)` on a dotted key. -/
def getDiffByPath (diff : Option (List DiffEntry)) (key : String) :
    Option (List DiffEntry) :=
  getDiffByPathList diff (splitDots key)

/-- Method `OutputDiffModel.stringify`, parameterized by the external
`patchStringified` primitive used by `createPatchDiffModel`: resolves the
sub-values and sub-diff at the (optional) dotted key, dispatches to the
direct or the patch factory, and assigns mimetype and collapsibility hints
to the resulting model. -/
def OutputDiffModel.stringifyKey
    (patchStringified : JsVal → List DiffEntry → PatchResult)
    (m : OutputDiffModel) (key : Option String) :
    Except String StringDiffModel :=
  let k? : Option String := match key with
    | some k => if k == "" then none else some k
    | none => none
  let base := match k? with
    | some k => getMemberByPath m.base k
    | none => m.base
  let remote := match k? with
    | some k => getMemberByPath m.remote k
    | none => m.remote
  let diff := match m.diff, k? with
    | some d, some k => getDiffByPath (some d) k
    | d, _ => d
  let modelE : Except String StringDiffModel :=
    if m.unchanged || m.added || m.deleted || diff.isNone then
      createDirectDiffModel base remote
    else
      .ok (createPatchDiffModel patchStringified base (diff.getD []))
  match modelE with
  | .error e => .error e
  | .ok model =>
    let mtE : Except String String := match k? with
      | some k => m.innerMimeType k
      | none => .ok "application/json"
    match mtE with
    | .error e => .error e
    | .ok mt =>
      .ok { model with
              mimetype := some mt
              collapsible := m.collapsible
              collapsibleHeader := m.collapsibleHeader
              startCollapsed := m.startCollapsed }

/-! Auxiliary predicates and concrete instances used by the theorems. -/

/-- Position order: `p` is at or before `q` (line first, then column). -/
def posLe (p q : Pos) : Bool :=
  p.line < q.line || (p.line == q.line && p.ch ≤ q.ch)

/-- Every consecutive pair of a list satisfies the relation. -/
def chainB (R : DiffRangePos → DiffRangePos → Bool) : List DiffRangePos → Bool
  | [] => true
  | [_] => true
  | a :: b :: rest => R a b && chainB R (b :: rest)

/-- A range list sorted on the ranges' `from` position, as the
`StringDiffModel` documentation demands. -/
def sortedByFrom (l : List DiffRangePos) : Bool :=
  chainB (fun a b => posLe a.fromPos b.fromPos) l

/-- A range list whose consecutive ranges do not overlap: each range ends at
or before the next one starts. -/
def nonOverlapping (l : List DiffRangePos) : Bool :=
  chainB (fun a b => posLe a.toPos b.fromPos) l

/-- A line-aligned range: it begins at a line start, does not end just after
a line terminator, and is well formed (`from` at or before `to`). -/
def lineAligned (r : DiffRangePos) : Prop :=
  r.chunkStartLine = true ∧ r.endsOnNewline = false ∧
    r.fromPos.line ≤ r.toPos.line

instance (r : DiffRangePos) : Decidable (lineAligned r) :=
  inferInstanceAs (Decidable (r.chunkStartLine = true ∧ r.endsOnNewline = false ∧
    r.fromPos.line ≤ r.toPos.line))

/-- Strict separation of two chunks: the first ends before the second starts
on both the original and the edit side (so their inclusive spans are
disjoint and in ascending order). -/
def chunkSep (c1 c2 : Chunk) : Prop :=
  c1.origTo < c2.origFrom ∧ c1.editTo < c2.editFrom

/-- A well-formed chunk: both spans are non-empty intervals. -/
def chunkWf (c : Chunk) : Prop :=
  c.origFrom ≤ c.origTo ∧ c.editFrom ≤ c.editTo

/-- Whether an `Except` result is a success. -/
def exceptOk {ε α : Type} : Except ε α → Bool
  | .ok _ => true
  | .error _ => false

/-- A stand-in for the external `patchStringified` primitive, used when a
statement does not depend on its output. -/
def patchStub : JsVal → List DiffEntry → PatchResult :=
  fun _ _ => ⟨"", [], []⟩

/-- A stand-in for the external `patch` primitive, used when a statement
does not depend on its output. -/
def patchValStub : JsVal → List DiffEntry → JsVal :=
  fun _ _ => JsVal.null

/-- The remote text of the claim C1 counterexample: twenty-one lines each
holding the single character `x`. -/
def c1remote : String :=
  "x\nx\nx\nx\nx\nx\nx\nx\nx\nx\nx\nx\nx\nx\nx\nx\nx\nx\nx\nx\nx"

/-- The claim C1 counterexample model: base of three lines with two deleted
one-character spans (offsets 0-1 and 4-5), remote of twenty-one lines with
two added spans (offsets 2-21 and 22-41).  Both range lists are sorted and
non-overlapping. -/
def c1ex : StringDiffModel :=
  StringDiffModel.make (some "a\nb\ncc") (some c1remote)
    [⟨2, 21⟩, ⟨22, 41⟩] [⟨0, 1⟩, ⟨4, 5⟩] none none none

/-- The claim C4 counterexample model: equal base and remote text but a
non-empty additions list. -/
def c4ex : StringDiffModel :=
  StringDiffModel.make (some "a") (some "a") [⟨0, 1⟩] [] none none none

/-- A stream output with text `a`. -/
def streamA : JsVal :=
  .obj [("output_type", .str "stream"), ("text", .str "a")]

/-- A stream output with text `b`. -/
def streamB : JsVal :=
  .obj [("output_type", .str "stream"), ("text", .str "b")]

/-- The claim C7 counterexample model: differing stream outputs whose diff
list has no entry addressing the sub-path `text`. -/
def c7ex : OutputDiffModel :=
  OutputDiffModel.make patchValStub streamA streamB
    (some [DiffEntry.patchEntry "name" []]) none none none

/-- A model like `c7ex` but with equal `text` sub-values, for the amended
claim C7: the absent-diff fallback succeeds there. -/
def c7ok : OutputDiffModel :=
  OutputDiffModel.make patchValStub streamA streamA
    (some [DiffEntry.patchEntry "name" []]) none none none

/-- An `execute_result` output whose `text/plain` payload is `1`. -/
def execResult1 : JsVal :=
  .obj [("output_type", .str "execute_result"),
    ("data", .obj [("text/plain", .str "1")])]

/-- An `execute_result` output whose `text/plain` payload is `2`. -/
def execResult2 : JsVal :=
  .obj [("output_type", .str "execute_result"),
    ("data", .obj [("text/plain", .str "2")])]

/-- A diff-entry list patching `data` and, inside it, `text/plain`. -/
def c9diff : List DiffEntry :=
  [DiffEntry.patchEntry "data"
    [DiffEntry.patchEntry "text/plain" [DiffEntry.addEntry "0" (.str "2")]]]

/-- The claim C9 model: an `execute_result` output pair with differing
`data['text/plain']` values and a diff at that sub-path. -/
def c9ex : OutputDiffModel :=
  OutputDiffModel.make patchValStub execResult1 execResult2 (some c9diff)
    none none none

/-! ## Theorems -/

/-- A direct model exists exactly when one side is null or the stringified
forms agree; here the sufficient direction. -/
theorem createDirect_isOk (b r : JsVal)
    (h : b.isNull = true ∨ r.isNull = true ∨ directStr r = directStr b) :
    ∃ dm, createDirectDiffModel b r = .ok dm := by
  unfold createDirectDiffModel
  rcases h with h | h | h
  · simp [h]
  · cases hb : b.isNull <;> simp [h, hb]
  · cases hb : b.isNull <;> cases hr : r.isNull <;> simp [h, hb, hr]

/-- Claim C2: in `getChunks`, when both streams still have a next range, the
addition is consumed next unless the deletion's original-side starting line
(its `from.line` minus the running `editOffset`) is strictly earlier than
the addition's `from.line`, or equal with a strictly earlier column; when
both start at exactly the same normalized position, the addition is consumed
first.  The first conjunct characterizes when the deletion wins, the second
settles the exact tie toward the addition, and the third shows the loop
consumes the range selected by `pickAddition`. -/
theorem claim_C2_selection (ra rd : DiffRangePos) (editOffset : Int) :
    (pickAddition ra rd editOffset = false ↔
      ((rd.fromPos.line : Int) - editOffset < (ra.fromPos.line : Int) ∨
        ((rd.fromPos.line : Int) - editOffset = (ra.fromPos.line : Int) ∧
          rd.fromPos.ch < ra.fromPos.ch))) ∧
    (((rd.fromPos.line : Int) - editOffset = (ra.fromPos.line : Int) ∧
        rd.fromPos.ch = ra.fromPos.ch) →
      pickAddition ra rd editOffset = true) ∧
    (∀ (fuel : Nat) (as ds : List DiffRangePos) (current : Option Chunk),
      getChunksLoop (fuel + 1) (ra :: as) (rd :: ds) editOffset current =
        if pickAddition ra rd editOffset then
          (processRange ra true editOffset current).1 ++
            getChunksLoop fuel as (rd :: ds)
              (processRange ra true editOffset current).2.2
              (processRange ra true editOffset current).2.1
        else
          (processRange rd false editOffset current).1 ++
            getChunksLoop fuel (ra :: as) ds
              (processRange rd false editOffset current).2.2
              (processRange rd false editOffset current).2.1) := by
  refine ⟨?_, ?_, ?_⟩
  · simp only [pickAddition, Bool.or_eq_false_iff, Bool.and_eq_false_iff,
      decide_eq_false_iff_not, not_lt, beq_eq_false_iff_ne, ne_eq,
      decide_eq_true_eq]
    omega
  · intro h
    simp only [pickAddition, Bool.or_eq_true, Bool.and_eq_true,
      decide_eq_true_eq, beq_iff_eq]
    omega
  · intro fuel as ds current
    cases h : pickAddition ra rd editOffset <;> simp [getChunksLoop, h]

/-- Claim C2 witness: with the deletion two lines later but `editOffset` 2,
the normalized positions coincide and the addition is picked. -/
theorem claim_C2_witness :
    pickAddition ⟨⟨5, 3⟩, ⟨5, 3⟩, false, false⟩ ⟨⟨7, 3⟩, ⟨7, 3⟩, false, false⟩ 2 =
      true :=
  (claim_C2_selection ⟨⟨5, 3⟩, ⟨5, 3⟩, false, false⟩
    ⟨⟨7, 3⟩, ⟨7, 3⟩, false, false⟩ 2).2.1 (by constructor <;> decide)

/-- Claim C3 counterexample: for base `null`, remote `"hello\nworld"` the
model has the single addition raw range 0-11 translated to the position
range (0,0)-(1,5), and `getChunks` returns the single chunk
`⟨0, 1, 0, 2⟩`, whose `origFrom` and `origTo` differ: the claimed zero-width
original span fails (the code adds `linediff` to `origTo` for additions). -/
theorem claim_C3_counterexample :
    (createDirectDiffModel JsVal.null (JsVal.str "hello\nworld")).map
        (fun m => (m.additions, m.deletions, m.getChunks)) =
      .ok ([⟨⟨0, 0⟩, ⟨1, 5⟩, false, true⟩], [], [⟨0, 1, 0, 2⟩]) ∧
    (Chunk.mk 0 1 0 2).origFrom ≠ (Chunk.mk 0 1 0 2).origTo :=
  ⟨rfl, by decide⟩

/-- Claim C3 amended: base `null`, remote `"hello\nworld"` yields exactly one
addition raw range 0-11 (the position range spans lines 0-1), no deletions,
and exactly one chunk `⟨0, 1, 0, 2⟩`; its `editFrom`/`editTo` side covers
both lines 0 and 1, while its original span is `[0, 2]` - two lines wide,
not zero-width. -/
theorem claim_C3_amended :
    ∃ m, createDirectDiffModel JsVal.null (JsVal.str "hello\nworld") = .ok m ∧
      m.additions = raw2Pos [⟨0, 11⟩] "hello\nworld" ∧
      m.additions = [⟨⟨0, 0⟩, ⟨1, 5⟩, false, true⟩] ∧
      m.deletions = [] ∧
      m.getChunks = [⟨0, 1, 0, 2⟩] ∧
      (Chunk.mk 0 1 0 2).inEdit 0 = true ∧
      (Chunk.mk 0 1 0 2).inEdit 1 = true ∧
      (Chunk.mk 0 1 0 2).origFrom = 0 ∧
      (Chunk.mk 0 1 0 2).origTo = 2 :=
  ⟨_, rfl, rfl, rfl, rfl, rfl, rfl, rfl, rfl, rfl⟩

/-- Claim C4 counterexample: a model whose base and remote text agree (so
`unchanged` holds) but whose additions list is non-empty; `getChunks`
returns a non-empty chunk list. -/
theorem claim_C4_counterexample :
    c4ex.unchanged = true ∧ c4ex.getChunks = [⟨0, 1, 0, 1⟩] ∧
      c4ex.getChunks ≠ [] :=
  ⟨rfl, rfl, by decide⟩

/-- Claim C4 amended: `unchanged` only compares the texts and does not
constrain the range lists, so the correct premise is emptiness of the range
lists: a model with no additions and no deletions (as every unchanged model
built by the factories has) gets an empty chunk list. -/
theorem claim_C4_amended (m : StringDiffModel) (ha : m.additions = [])
    (hd : m.deletions = []) : m.getChunks = [] := by
  unfold StringDiffModel.getChunks
  rw [ha, hd]
  rfl

/-- Claim C4 witness: a concrete rangeless model has no chunks. -/
theorem claim_C4_witness :
    (StringDiffModel.mk (some "a") (some "a") [] [] none false none none).getChunks
      = [] :=
  claim_C4_amended
    (StringDiffModel.mk (some "a") (some "a") [] [] none false none none) rfl rfl

/-- Claim C5 counterexample: at `X = null`, `createDirectDiffModel(X, X)`
takes the added-cell branch: the additions list has one entry (spanning the
serialized text `"null"`) and `unchanged` is `false` (`base` is null while
`remote` is the string `"null"`). -/
theorem claim_C5_counterexample :
    (createDirectDiffModel JsVal.null JsVal.null).map
        (fun m => (m.additions.length, m.unchanged)) = .ok (1, false) :=
  rfl

/-- Claim C5 amended: for every non-null `X`, `createDirectDiffModel(X, X)`
yields a model with empty additions and deletions and `unchanged` true; the
null case takes the added-cell branch instead (see the counterexample). -/
theorem claim_C5_amended (X : JsVal) (h : X.isNull = false) :
    createDirectDiffModel X X =
      .ok (StringDiffModel.make (some (directStr X)) (some (directStr X))
        [] [] none none none) ∧
    ∀ m, createDirectDiffModel X X = .ok m →
      m.additions = [] ∧ m.deletions = [] ∧ m.unchanged = true := by
  have h1 : createDirectDiffModel X X =
      .ok (StringDiffModel.make (some (directStr X)) (some (directStr X))
        [] [] none none none) := by
    unfold createDirectDiffModel
    simp [h]
  refine ⟨h1, fun m hm => ?_⟩
  rw [h1] at hm
  cases hm
  refine ⟨?_, ?_, ?_⟩ <;> simp [StringDiffModel.make, raw2Pos,
    StringDiffModel.unchanged]

/-- Claim C5 witness: the amended claim at the string `"x"`. -/
theorem claim_C5_witness :
    createDirectDiffModel (JsVal.str "x") (JsVal.str "x") =
      .ok (StringDiffModel.make (some (directStr (JsVal.str "x")))
        (some (directStr (JsVal.str "x"))) [] [] none none none) ∧
    ∀ m, createDirectDiffModel (JsVal.str "x") (JsVal.str "x") = .ok m →
      m.additions = [] ∧ m.deletions = [] ∧ m.unchanged = true :=
  claim_C5_amended (JsVal.str "x") rfl

/-- Claim C6: `createDirectDiffModel` throws exactly when base and remote
are both present (non-null) and their stringified forms differ; one absent
side gives a pure addition or pure deletion model, and two present equal
sides give an unchanged model with no ranges. -/
theorem claim_C6_direct (base remote : JsVal) :
    ((∃ e, createDirectDiffModel base remote = .error e) ↔
      (base.isNull = false ∧ remote.isNull = false ∧
        directStr remote ≠ directStr base)) ∧
    (base.isNull = true → remote.isNull = false →
      ∃ m, createDirectDiffModel base remote = .ok m ∧ m.base = none ∧
        m.deletions = [] ∧ m.added = true ∧
        m.additions = raw2Pos [⟨0, (directStr remote).length⟩]
          (directStr remote)) ∧
    (base.isNull = false → remote.isNull = true →
      ∃ m, createDirectDiffModel base remote = .ok m ∧ m.remote = none ∧
        m.additions = [] ∧ m.deleted = true ∧
        m.deletions = raw2Pos [⟨0, (directStr base).length⟩]
          (directStr base)) ∧
    (base.isNull = false → remote.isNull = false →
      directStr remote = directStr base →
      ∃ m, createDirectDiffModel base remote = .ok m ∧
        m.additions = [] ∧ m.deletions = [] ∧ m.unchanged = true) := by
  refine ⟨?_, ?_, ?_, ?_⟩
  · constructor
    · rintro ⟨e, he⟩
      cases hb : base.isNull <;> cases hr : remote.isNull <;>
        by_cases hs : directStr remote = directStr base <;>
        simp [createDirectDiffModel, hb, hr, hs] at he ⊢
    · rintro ⟨hb, hr, hs⟩
      simp [createDirectDiffModel, hb, hr, hs]
  · intro hb hr
    have hok : createDirectDiffModel base remote =
        .ok (StringDiffModel.make none (some (directStr remote))
          [⟨0, (directStr remote).length⟩] [] none none none) := by
      simp [createDirectDiffModel, hb]
    exact ⟨_, hok, rfl, rfl, rfl, rfl⟩
  · intro hb hr
    have hok : createDirectDiffModel base remote =
        .ok (StringDiffModel.make (some (directStr base)) none
          [] [⟨0, (directStr base).length⟩] none none none) := by
      simp [createDirectDiffModel, hb, hr]
    exact ⟨_, hok, rfl, rfl, rfl, rfl⟩
  · intro hb hr hs
    have hok : createDirectDiffModel base remote =
        .ok (StringDiffModel.make (some (directStr base))
          (some (directStr remote)) [] [] none none none) := by
      simp [createDirectDiffModel, hb, hr, hs]
    refine ⟨_, hok, ?_, ?_, ?_⟩
    · simp [StringDiffModel.make, raw2Pos]
    · simp [StringDiffModel.make, raw2Pos]
    · simp [StringDiffModel.make, StringDiffModel.unchanged, hs]

/-- Claim C6 witness: the four cases at concrete inputs: a hard failure for
present unequal strings, a pure addition for absent base, a pure deletion
for absent remote, and an unchanged model for equal strings. -/
theorem claim_C6_witness :
    (∃ e, createDirectDiffModel (JsVal.str "a") (JsVal.str "b") = .error e) ∧
    (∃ m, createDirectDiffModel JsVal.null (JsVal.str "x") = .ok m ∧
      m.base = none ∧ m.deletions = [] ∧ m.added = true ∧
      m.additions = raw2Pos [⟨0, (directStr (JsVal.str "x")).length⟩]
        (directStr (JsVal.str "x"))) ∧
    (∃ m, createDirectDiffModel (JsVal.str "x") JsVal.null = .ok m ∧
      m.remote = none ∧ m.additions = [] ∧ m.deleted = true ∧
      m.deletions = raw2Pos [⟨0, (directStr (JsVal.str "x")).length⟩]
        (directStr (JsVal.str "x"))) ∧
    (∃ m, createDirectDiffModel (JsVal.str "x") (JsVal.str "x") = .ok m ∧
      m.additions = [] ∧ m.deletions = [] ∧ m.unchanged = true) :=
  ⟨(claim_C6_direct (JsVal.str "a") (JsVal.str "b")).1.mpr
      ⟨rfl, rfl, by decide⟩,
    (claim_C6_direct JsVal.null (JsVal.str "x")).2.1 rfl rfl,
    (claim_C6_direct (JsVal.str "x") JsVal.null).2.2.1 rfl rfl,
    (claim_C6_direct (JsVal.str "x") (JsVal.str "x")).2.2.2 rfl rfl rfl⟩

/-- Claim C8: a model constructed with a base, an absent remote and a
non-empty diff list derives its `remote` by applying the external `patch`
primitive to the base with that diff. -/
theorem claim_C8_patched (patchFn : JsVal → List DiffEntry → JsVal)
    (base : JsVal) (d : DiffEntry) (ds : List DiffEntry)
    (collapsible : Option Bool) (header : Option String)
    (collapsed : Option Bool) :
    (OutputDiffModel.make patchFn base JsVal.null (some (d :: ds))
        collapsible header collapsed).remote = patchFn base (d :: ds) :=
  rfl

/-- Claim C10: an output model's `unchanged` holds exactly when its stored
diff list is null; the constructor stores the diff argument unmodified, so a
model built from differing outputs with no diff list still reports
`unchanged` true. -/
theorem claim_C10_unchanged (patchFn : JsVal → List DiffEntry → JsVal)
    (b r : JsVal) (diff : Option (List DiffEntry)) (collapsible : Option Bool)
    (header : Option String) (collapsed : Option Bool) :
    ((OutputDiffModel.make patchFn b r diff collapsible header
        collapsed).unchanged = true ↔
      (OutputDiffModel.make patchFn b r diff collapsible header
        collapsed).diff = none) ∧
    (OutputDiffModel.make patchFn b r diff collapsible header
      collapsed).diff = diff ∧
    (OutputDiffModel.make patchFn b r none collapsible header
      collapsed).unchanged = true := by
  refine ⟨?_, rfl, rfl⟩
  simp [OutputDiffModel.make, OutputDiffModel.unchanged]

/-- Claim C9: on the `execute_result` pair with differing `text/plain`
payloads, `stringify('data.text/plain')` yields a model whose mimetype is
`text/plain` (whatever the external patch primitive returns for the inner
diff); and any key not recognized for the output's declared type makes
`innerMimeType` throw. -/
theorem claim_C9_mimetype :
    (∀ pf, (c9ex.stringifyKey pf (some "data.text/plain")).map (·.mimetype) =
      .ok (some "text/plain")) ∧
    (∀ (m : OutputDiffModel) (key : String),
      ¬((m.outputType.isStr "stream" = true ∧ key = "text") ∨
        ((m.outputType.isStr "execute_result" = true ∨
          m.outputType.isStr "display_data" = true) ∧
          startsWithData key = true)) →
      ∃ e, m.innerMimeType key = .error e) := by
  constructor
  · intro pf
    rfl
  · intro m key h
    simp only [OutputDiffModel.innerMimeType]
    split
    · next hcond =>
      rw [Bool.and_eq_true, beq_iff_eq] at hcond
      exact absurd (Or.inl ⟨hcond.1, hcond.2⟩) h
    · split
      · next hcond2 =>
        rw [Bool.and_eq_true, Bool.or_eq_true] at hcond2
        exact absurd (Or.inr ⟨hcond2.1, hcond2.2⟩) h
      · exact ⟨_, rfl⟩

/-- Claim C9 witness: the mimetype result for a concrete patch primitive,
and a hard failure at the unknown key `bogus`. -/
theorem claim_C9_witness :
    ((c9ex.stringifyKey patchStub (some "data.text/plain")).map (·.mimetype) =
      .ok (some "text/plain")) ∧
    (∃ e, c9ex.innerMimeType "bogus" = .error e) :=
  ⟨claim_C9_mimetype.1 patchStub,
    claim_C9_mimetype.2 c9ex "bogus" (by decide)⟩

/-- Claim C7 counterexample: a model with a diff list but no entry at the
sub-path `text`, whose `text` sub-values resolve to the differing strings
`a` and `b`: although the key is recognized (`innerMimeType` returns
`text/plain`), `stringify('text')` fails instead of falling back, because
`createDirectDiffModel` rejects present unequal values. -/
theorem claim_C7_counterexample :
    c7ex.diff.isNone = false ∧
    getDiffByPath c7ex.diff "text" = none ∧
    getMemberByPath c7ex.base "text" = JsVal.str "a" ∧
    getMemberByPath c7ex.remote "text" = JsVal.str "b" ∧
    c7ex.innerMimeType "text" = .ok "text/plain" ∧
    exceptOk (c7ex.stringifyKey patchStub (some "text")) = false :=
  ⟨rfl, rfl, rfl, rfl, rfl, rfl⟩

/-- Claim C7 amended: when the sub-path has no applicable diff entry, the
fallback to the direct model succeeds provided the resolved sub-values are
equal as strings or one of them is absent, and the key is recognized by
`innerMimeType`; the model returned is the direct model of the sub-values
with the resolved mimetype and the parent's collapsibility hints.  When both
sub-values are present and differ, the fallback instead propagates
`createDirectDiffModel`'s hard failure (see the counterexample). -/
theorem claim_C7_amended (pf : JsVal → List DiffEntry → PatchResult)
    (m : OutputDiffModel) (k : String) (mt : String)
    (hk : (k == "") = false)
    (hdiff : getDiffByPath m.diff k = none)
    (hmt : m.innerMimeType k = .ok mt)
    (hres : (getMemberByPath m.base k).isNull = true ∨
      (getMemberByPath m.remote k).isNull = true ∨
      directStr (getMemberByPath m.remote k) =
        directStr (getMemberByPath m.base k)) :
    ∃ dm, createDirectDiffModel (getMemberByPath m.base k)
        (getMemberByPath m.remote k) = .ok dm ∧
      m.stringifyKey pf (some k) =
        .ok { dm with
                mimetype := some mt
                collapsible := m.collapsible
                collapsibleHeader := m.collapsibleHeader
                startCollapsed := m.startCollapsed } := by
  obtain ⟨dm, hdm⟩ := createDirect_isOk _ _ hres
  refine ⟨dm, hdm, ?_⟩
  unfold OutputDiffModel.stringifyKey
  simp only [hk]
  cases hmd : m.diff with
  | none =>
    simp only [hmd] at hdiff ⊢
    simp [hdiff, hdm, hmt]
  | some d =>
    simp only [hmd] at hdiff ⊢
    simp [hdiff, hdm, hmt]

/-- Position order implies line order. -/
theorem posLe_line {p q : Pos} (h : posLe p q = true) : p.line ≤ q.line := by
  simp only [posLe, Bool.or_eq_true, Bool.and_eq_true, decide_eq_true_eq,
    beq_iff_eq] at h
  omega

/-- Splitting a chain check at a cons cell. -/
theorem chainB_cons {R : DiffRangePos → DiffRangePos → Bool}
    {a b : DiffRangePos} {l : List DiffRangePos}
    (h : chainB R (a :: b :: l) = true) :
    R a b = true ∧ chainB R (b :: l) = true := by
  simp only [chainB, Bool.and_eq_true] at h
  exact h

/-- A sorted range list has pairwise nondecreasing `from` lines. -/
theorem sortedByFrom_pairwise : ∀ (l : List DiffRangePos),
    sortedByFrom l = true →
    l.Pairwise (fun x y => x.fromPos.line ≤ y.fromPos.line)
  | [], _ => List.Pairwise.nil
  | [a], _ => by simp
  | a :: b :: rest, h => by
    have h' := chainB_cons (R := fun x y => posLe x.fromPos y.fromPos) h
    have ih := sortedByFrom_pairwise (b :: rest) h'.2
    refine List.Pairwise.cons ?_ ih
    intro y hy
    rcases List.mem_cons.mp hy with hy | hy
    · subst hy
      exact posLe_line h'.1
    · exact le_trans (posLe_line h'.1) ((List.pairwise_cons.mp ih).1 y hy)

/-- A non-overlapping list of well-formed ranges has each range ending at or
before every later range starts, line-wise. -/
theorem nonOverlapping_pairwise : ∀ (l : List DiffRangePos),
    (∀ r ∈ l, r.fromPos.line ≤ r.toPos.line) →
    nonOverlapping l = true →
    l.Pairwise (fun x y => x.toPos.line ≤ y.fromPos.line)
  | [], _, _ => List.Pairwise.nil
  | [a], _, _ => by simp
  | a :: b :: rest, hv, h => by
    have h' := chainB_cons (R := fun x y => posLe x.toPos y.fromPos) h
    have ih := nonOverlapping_pairwise (b :: rest)
      (fun r hr => hv r (List.mem_cons_of_mem a hr)) h'.2
    refine List.Pairwise.cons ?_ ih
    intro y hy
    rcases List.mem_cons.mp hy with hy | hy
    · subst hy
      exact posLe_line h'.1
    · have hby := (List.pairwise_cons.mp ih).1 y hy
      have hbv := hv b (by simp)
      exact le_trans (posLe_line h'.1) (le_trans hbv hby)

/-- Within a strictly separated chunk list, at most one chunk's original
span can contain a given nonempty line interval. -/
theorem chunkSep_unique : ∀ (l : List Chunk), l.Pairwise chunkSep →
    ∀ (lo hi : Int), lo ≤ hi → ∀ c1 ∈ l, ∀ c2 ∈ l,
    c1.origFrom ≤ lo → hi < c1.origTo → c2.origFrom ≤ lo → hi < c2.origTo →
    c1 = c2
  | [], _, _, _, _, _, h1, _, _, _, _, _, _ => absurd h1 (List.not_mem_nil _)
  | c :: rest, hp, lo, hi, hlohi, c1, h1, c2, h2, ha1, hb1, ha2, hb2 => by
    obtain ⟨hsep, hrest⟩ := List.pairwise_cons.mp hp
    rcases List.mem_cons.mp h1 with h1 | h1 <;>
      rcases List.mem_cons.mp h2 with h2 | h2
    · rw [h1, h2]
    · exfalso
      have := (hsep c2 h2).1
      rw [h1] at hb1
      omega
    · exfalso
      have := (hsep c1 h1).1
      rw [h2] at hb2
      omega
    · exact chunkSep_unique rest hrest lo hi hlohi c1 h1 c2 h2 ha1 hb1 ha2 hb2

/-- Claim C7 witness: the amended claim on a stream output pair with equal
`text` sub-values and no diff entry at `text`. -/
theorem claim_C7_witness :
    ∃ dm, createDirectDiffModel (getMemberByPath c7ok.base "text")
        (getMemberByPath c7ok.remote "text") = .ok dm ∧
      c7ok.stringifyKey patchStub (some "text") =
        .ok { dm with
                mimetype := some "text/plain"
                collapsible := c7ok.collapsible
                collapsibleHeader := c7ok.collapsibleHeader
                startCollapsed := c7ok.startCollapsed } :=
  claim_C7_amended patchStub c7ok "text" "text/plain" rfl rfl rfl
    (Or.inr (Or.inr rfl))

/-- The loop invariant of the chunk builder in the additions-only,
line-aligned case: starting from an open chunk `c` whose last consumed range
ended at line `t` (so `c.origTo = t + 1`), whose edit span keeps
`editTo ≤ origTo + editOffset`, and with every remaining sorted,
non-overlapping range starting at or after both `t` and `c.origFrom`, the
loop returns a non-empty chunk list headed by the completion of `c`, with
strictly separated well-formed chunks whose `origFrom`/`editFrom` never drop
below the head's, and with every remaining range's lines inside some chunk's
original span. -/
theorem getChunksLoop_additions_inv (as : List DiffRangePos) :
    ∀ (fuel : Nat) (off : Int) (c : Chunk) (t : Int),
    as.length ≤ fuel →
    (∀ a ∈ as, lineAligned a) →
    as.Pairwise (fun x y => x.fromPos.line ≤ y.fromPos.line) →
    as.Pairwise (fun x y => x.toPos.line ≤ y.fromPos.line) →
    c.origTo = t + 1 →
    c.editTo ≤ c.origTo + off →
    c.origFrom ≤ c.origTo →
    c.editFrom ≤ c.editTo →
    (∀ a ∈ as, t ≤ (a.fromPos.line : Int)) →
    (∀ a ∈ as, c.origFrom ≤ (a.fromPos.line : Int)) →
    ∃ hd tl, getChunksLoop fuel as [] off (some c) = hd :: tl ∧
      hd.origFrom = c.origFrom ∧ hd.editFrom = c.editFrom ∧
      hd.editTo = c.editTo ∧ c.origTo ≤ hd.origTo ∧
      (hd :: tl).Pairwise chunkSep ∧
      (∀ ch ∈ hd :: tl, chunkWf ch) ∧
      (∀ ch ∈ hd :: tl, hd.origFrom ≤ ch.origFrom ∧ hd.editFrom ≤ ch.editFrom) ∧
      (∀ a ∈ as, ∃ ch ∈ hd :: tl, ch.origFrom ≤ (a.fromPos.line : Int) ∧
        (a.toPos.line : Int) < ch.origTo) := by
  induction as with
  | nil =>
    intro fuel off c t _ _ _ _ hI1 hI2 hI3 hI4 _ _
    refine ⟨c, [], ?_, rfl, rfl, rfl, le_refl _, ?_, ?_, ?_, ?_⟩
    · cases fuel <;> rfl
    · simp
    · simp [chunkWf]
      exact ⟨hI3, hI4⟩
    · simp
    · simp
  | cons a as ih =>
    intro fuel off c t hlen hla hsort hnov hI1 hI2 hI3 hI4 hI5 hI6
    cases fuel with
    | zero => simp at hlen
    | succ f =>
      obtain ⟨hcsl, heonl, hfromto⟩ := hla a (by simp)
      have hstep : getChunksLoop (f + 1) (a :: as) [] off (some c) =
          (processRange a true off (some c)).1 ++
            getChunksLoop f as [] (processRange a true off (some c)).2.2
              (processRange a true off (some c)).2.1 := by
        simp [getChunksLoop]
      have hto := (List.pairwise_cons.mp hnov).1
      have hfrom := (List.pairwise_cons.mp hsort).1
      have hI5a := hI5 a (by simp)
      have hI6a := hI6 a (by simp)
      cases hin : c.inOrig a.fromPos.line with
      | true =>
        have hpr : processRange a true off (some c) =
            ([], some { c with origTo := max c.origTo ((a.toPos.line : Int) + 1) },
              off + -(((a.toPos.line : Int)) - ((a.fromPos.line : Int)))) := by
          simp [processRange, hcsl, heonl, hin]
        rw [hstep, hpr]
        simp only [List.nil_append]
        obtain ⟨hd, tl, heq, hf1, hf2, hf3, hf4, hp, hwf, hlb, hcont⟩ :=
          ih f (off + -(((a.toPos.line : Int)) - ((a.fromPos.line : Int))))
            { c with origTo := max c.origTo ((a.toPos.line : Int) + 1) }
            (max t (a.toPos.line : Int))
            (Nat.le_of_succ_le_succ hlen)
            (fun b hb => hla b (List.mem_cons_of_mem a hb))
            (List.pairwise_cons.mp hsort).2
            (List.pairwise_cons.mp hnov).2
            (show max c.origTo ((a.toPos.line : Int) + 1) =
              max t (a.toPos.line : Int) + 1 by omega)
            (show c.editTo ≤ max c.origTo ((a.toPos.line : Int) + 1) +
              (off + -(((a.toPos.line : Int)) - ((a.fromPos.line : Int)))) by
                omega)
            (show c.origFrom ≤ max c.origTo ((a.toPos.line : Int) + 1) by omega)
            hI4
            (fun b hb => show max t (a.toPos.line : Int) ≤ (b.fromPos.line : Int) by
              have h1 := hI5 b (List.mem_cons_of_mem a hb)
              have h2 := hto b hb
              omega)
            (fun b hb => hI6 b (List.mem_cons_of_mem a hb))
        have hf1a : hd.origFrom = c.origFrom := hf1
        have hf2a : hd.editFrom = c.editFrom := hf2
        have hf3a : hd.editTo = c.editTo := hf3
        have hf4a : max c.origTo ((a.toPos.line : Int) + 1) ≤ hd.origTo := hf4
        refine ⟨hd, tl, heq, hf1a, hf2a, hf3a, by omega, hp, hwf, ?_, ?_⟩
        · intro ch hch
          exact hlb ch hch
        · intro b hb
          rcases List.mem_cons.mp hb with hb | hb
          · subst hb
            exact ⟨hd, by simp, by omega, by omega⟩
          · exact hcont b hb
      | false =>
        have hpr : processRange a true off (some c) =
            ([c], some ⟨(a.fromPos.line : Int) + off,
              (a.fromPos.line : Int) + off + 1,
              (a.fromPos.line : Int),
              (a.fromPos.line : Int) + 1 +
                ((a.toPos.line : Int) - (a.fromPos.line : Int))⟩,
              off + -(((a.toPos.line : Int)) - ((a.fromPos.line : Int)))) := by
          simp [processRange, hcsl, heonl, hin]
        rw [hstep, hpr]
        simp only [List.cons_append, List.nil_append]
        have horig : c.origTo < (a.fromPos.line : Int) := by
          simp only [Chunk.inOrig, Bool.and_eq_false_iff,
            decide_eq_false_iff_not, not_le] at hin
          rcases hin with hin | hin <;> omega
        obtain ⟨hd2, tl2, heq2, hg1, hg2, hg3, hg4, hp2, hwf2, hlb2, hcont2⟩ :=
          ih f (off + -(((a.toPos.line : Int)) - ((a.fromPos.line : Int))))
            ⟨(a.fromPos.line : Int) + off, (a.fromPos.line : Int) + off + 1,
              (a.fromPos.line : Int),
              (a.fromPos.line : Int) + 1 +
                ((a.toPos.line : Int) - (a.fromPos.line : Int))⟩
            (a.toPos.line : Int)
            (Nat.le_of_succ_le_succ hlen)
            (fun b hb => hla b (List.mem_cons_of_mem a hb))
            (List.pairwise_cons.mp hsort).2
            (List.pairwise_cons.mp hnov).2
            (show (a.fromPos.line : Int) + 1 +
              ((a.toPos.line : Int) - (a.fromPos.line : Int)) =
              (a.toPos.line : Int) + 1 by omega)
            (show (a.fromPos.line : Int) + off + 1 ≤
              ((a.fromPos.line : Int) + 1 +
                ((a.toPos.line : Int) - (a.fromPos.line : Int))) +
              (off + -(((a.toPos.line : Int)) - ((a.fromPos.line : Int)))) by
                omega)
            (show (a.fromPos.line : Int) ≤ (a.fromPos.line : Int) + 1 +
              ((a.toPos.line : Int) - (a.fromPos.line : Int)) by omega)
            (show (a.fromPos.line : Int) + off ≤
              (a.fromPos.line : Int) + off + 1 by omega)
            (fun b hb => show (a.toPos.line : Int) ≤ (b.fromPos.line : Int) by
              have h2 := hto b hb
              omega)
            (fun b hb => show (a.fromPos.line : Int) ≤ (b.fromPos.line : Int) by
              have h2 := hfrom b hb
              omega)
        have hg1a : hd2.origFrom = (a.fromPos.line : Int) := hg1
        have hg2a : hd2.editFrom = (a.fromPos.line : Int) + off := hg2
        have hg4a : (a.fromPos.line : Int) + 1 +
            ((a.toPos.line : Int) - (a.fromPos.line : Int)) ≤ hd2.origTo := hg4
        rw [heq2]
        refine ⟨c, hd2 :: tl2, rfl, rfl, rfl, rfl, le_refl _, ?_, ?_, ?_, ?_⟩
        · refine List.pairwise_cons.mpr ⟨?_, hp2⟩
          intro ch hch
          have hlbch := hlb2 ch hch
          have h1 := hlbch.1
          have h2 := hlbch.2
          exact ⟨by omega, by omega⟩
        · intro ch hch
          rcases List.mem_cons.mp hch with hch | hch
          · subst hch
            exact ⟨hI3, hI4⟩
          · exact hwf2 ch hch
        · intro ch hch
          rcases List.mem_cons.mp hch with hch | hch
          · subst hch
            exact ⟨le_refl _, le_refl _⟩
          · have hlbch := hlb2 ch hch
            have h1 := hlbch.1
            have h2 := hlbch.2
            exact ⟨by omega, by omega⟩
        · intro b hb
          rcases List.mem_cons.mp hb with hb | hb
          · subst hb
            exact ⟨hd2, by simp, by omega, by omega⟩
          · obtain ⟨ch, hch, hcc⟩ := hcont2 b hb
            exact ⟨ch, List.mem_cons_of_mem c hch, hcc⟩

/-- Claim C1 amended: the guarantee fails in general (see the
counterexample); it holds for pure-addition models with line-aligned ranges:
if the deletions list is empty and every addition starts at a line start,
does not end just after a newline, is well formed, and the additions are
sorted and non-overlapping, then the chunks of `getChunks` are pairwise
strictly separated and ascending on both the `origFrom`/`origTo` and the
`editFrom`/`editTo` side, each chunk is well formed, and every addition's
lines are contained in the original-side span of exactly one chunk (in this
code additions correlate with the `orig` fields: `getChunks` grows `origTo`
when an addition extends an open chunk). -/
theorem claim_C1_amended (m : StringDiffModel)
    (hdel : m.deletions = [])
    (hla : ∀ a ∈ m.additions, lineAligned a)
    (hsort : sortedByFrom m.additions = true)
    (hnov : nonOverlapping m.additions = true) :
    m.getChunks.Pairwise chunkSep ∧
    (∀ ch ∈ m.getChunks, chunkWf ch) ∧
    (∀ a ∈ m.additions, ∃ ch ∈ m.getChunks,
      (ch.origFrom ≤ (a.fromPos.line : Int) ∧
        (a.toPos.line : Int) < ch.origTo) ∧
      ∀ ch2 ∈ m.getChunks,
        (ch2.origFrom ≤ (a.fromPos.line : Int) ∧
          (a.toPos.line : Int) < ch2.origTo) →
        ch2 = ch) := by
  have hval : ∀ a ∈ m.additions, a.fromPos.line ≤ a.toPos.line :=
    fun a ha => (hla a ha).2.2
  have hpsort := sortedByFrom_pairwise m.additions hsort
  have hpnov := nonOverlapping_pairwise m.additions hval hnov
  unfold StringDiffModel.getChunks
  rw [hdel]
  generalize hadds : m.additions = as at *
  clear hadds hsort hnov
  cases as with
  | nil =>
    simp [getChunksLoop]
  | cons a as =>
    obtain ⟨hcsl, heonl, hfromto⟩ := hla a (by simp)
    have hto := (List.pairwise_cons.mp hpnov).1
    have hfrom := (List.pairwise_cons.mp hpsort).1
    have hlen : (a :: as).length + ([] : List DiffRangePos).length =
        as.length + 1 := by simp
    rw [hlen]
    have hstep : getChunksLoop (as.length + 1) (a :: as) [] 0 none =
        (processRange a true 0 none).1 ++
          getChunksLoop as.length as [] (processRange a true 0 none).2.2
            (processRange a true 0 none).2.1 := by
      simp [getChunksLoop]
    have hpr : processRange a true 0 none =
        ([], some ⟨(a.fromPos.line : Int), (a.fromPos.line : Int) + 1,
          (a.fromPos.line : Int),
          (a.fromPos.line : Int) + 1 +
            ((a.toPos.line : Int) - (a.fromPos.line : Int))⟩,
          -((a.toPos.line : Int) - (a.fromPos.line : Int))) := by
      simp [processRange, hcsl, heonl]
    rw [hstep, hpr]
    simp only [List.nil_append]
    obtain ⟨hd, tl, heq, hg1, hg2, hg3, hg4, hp, hwf, hlb, hcont⟩ :=
      getChunksLoop_additions_inv as as.length
        (-((a.toPos.line : Int) - (a.fromPos.line : Int)))
        ⟨(a.fromPos.line : Int), (a.fromPos.line : Int) + 1,
          (a.fromPos.line : Int),
          (a.fromPos.line : Int) + 1 +
            ((a.toPos.line : Int) - (a.fromPos.line : Int))⟩
        (a.toPos.line : Int)
        (le_refl _)
        (fun b hb => hla b (List.mem_cons_of_mem a hb))
        (List.pairwise_cons.mp hpsort).2
        (List.pairwise_cons.mp hpnov).2
        (show (a.fromPos.line : Int) + 1 +
          ((a.toPos.line : Int) - (a.fromPos.line : Int)) =
          (a.toPos.line : Int) + 1 by omega)
        (show (a.fromPos.line : Int) + 1 ≤
          ((a.fromPos.line : Int) + 1 +
            ((a.toPos.line : Int) - (a.fromPos.line : Int))) +
          -((a.toPos.line : Int) - (a.fromPos.line : Int)) by omega)
        (show (a.fromPos.line : Int) ≤ (a.fromPos.line : Int) + 1 +
          ((a.toPos.line : Int) - (a.fromPos.line : Int)) by omega)
        (show (a.fromPos.line : Int) ≤ (a.fromPos.line : Int) + 1 by omega)
        (fun b hb => show (a.toPos.line : Int) ≤ (b.fromPos.line : Int) by
          have h2 := hto b hb
          omega)
        (fun b hb => show (a.fromPos.line : Int) ≤ (b.fromPos.line : Int) by
          have h2 := hfrom b hb
          omega)
    have hg1a : hd.origFrom = (a.fromPos.line : Int) := hg1
    have hg4a : (a.fromPos.line : Int) + 1 +
        ((a.toPos.line : Int) - (a.fromPos.line : Int)) ≤ hd.origTo := hg4
    rw [heq]
    refine ⟨hp, hwf, ?_⟩
    intro b hb
    obtain ⟨ch, hch, hcc⟩ : ∃ ch ∈ hd :: tl,
        ch.origFrom ≤ (b.fromPos.line : Int) ∧
        (b.toPos.line : Int) < ch.origTo := by
      rcases List.mem_cons.mp hb with hb2 | hb2
      · subst hb2
        exact ⟨hd, by simp, by omega, by omega⟩
      · exact hcont b hb2
    refine ⟨ch, hch, hcc, ?_⟩
    intro ch2 hch2 hcc2
    exact chunkSep_unique (hd :: tl) hp (b.fromPos.line : Int)
      (b.toPos.line : Int) (by exact_mod_cast hval b hb)
      ch2 hch2 ch hch hcc2.1 hcc2.2 hcc.1 hcc.2

/-- Claim C1 counterexample: a model whose additions and deletions are both
sorted and non-overlapping (two one-character deletions on base lines 0 and
2; two multi-line additions on remote lines 1-10 and 11-20), yet
`getChunks` returns `[⟨0, 1, 0, 21⟩, ⟨2, 3, 20, 21⟩]`: the two distinct
chunks overlap on the original side (both spans contain line 20, and the
second chunk's `origFrom` 20 lies strictly inside the first span `[0, 21]`),
and the addition over lines 11-20 is contained in no chunk's edit span and
touches both chunks' original spans - so non-overlap, ascending order and
the exactly-one containment all fail. -/
theorem claim_C1_counterexample :
    sortedByFrom c1ex.additions = true ∧ nonOverlapping c1ex.additions = true ∧
    sortedByFrom c1ex.deletions = true ∧ nonOverlapping c1ex.deletions = true ∧
    c1ex.getChunks = [⟨0, 1, 0, 21⟩, ⟨2, 3, 20, 21⟩] ∧
    (Chunk.mk 0 1 0 21).inOrig 20 = true ∧
    (Chunk.mk 2 3 20 21).inOrig 20 = true ∧
    Chunk.mk 0 1 0 21 ≠ Chunk.mk 2 3 20 21 ∧
    (Chunk.mk 0 1 0 21).inEdit 11 = false ∧
    (Chunk.mk 2 3 20 21).inEdit 11 = false ∧
    (⟨⟨11, 0⟩, ⟨20, 1⟩, false, true⟩ : DiffRangePos) ∈ c1ex.additions :=
  ⟨rfl, rfl, rfl, rfl, rfl, rfl, rfl, by decide, rfl, rfl, by decide⟩

/-- Claim C1 witness: the amended claim at a concrete single-addition
model. -/
theorem claim_C1_witness :
    (StringDiffModel.mk none (some "hello\nworld")
        [⟨⟨0, 0⟩, ⟨1, 5⟩, false, true⟩] [] none false none
        none).getChunks.Pairwise chunkSep ∧
    (∀ ch ∈ (StringDiffModel.mk none (some "hello\nworld")
        [⟨⟨0, 0⟩, ⟨1, 5⟩, false, true⟩] [] none false none none).getChunks,
      chunkWf ch) ∧
    (∀ a ∈ [(⟨⟨0, 0⟩, ⟨1, 5⟩, false, true⟩ : DiffRangePos)],
      ∃ ch ∈ (StringDiffModel.mk none (some "hello\nworld")
          [⟨⟨0, 0⟩, ⟨1, 5⟩, false, true⟩] [] none false none none).getChunks,
        (ch.origFrom ≤ (a.fromPos.line : Int) ∧
          (a.toPos.line : Int) < ch.origTo) ∧
        ∀ ch2 ∈ (StringDiffModel.mk none (some "hello\nworld")
            [⟨⟨0, 0⟩, ⟨1, 5⟩, false, true⟩] [] none false none none).getChunks,
          (ch2.origFrom ≤ (a.fromPos.line : Int) ∧
            (a.toPos.line : Int) < ch2.origTo) →
          ch2 = ch) :=
  claim_C1_amended
    (StringDiffModel.mk none (some "hello\nworld")
      [⟨⟨0, 0⟩, ⟨1, 5⟩, false, true⟩] [] none false none none)
    rfl (by decide) rfl rfl

end Nbdime
